import Mathlib

/-!
Verification of the `genericmap` bidirectional map.

The Go package keeps a forward index `data : map[K]V` and a reverse index
`reverseMap : map[V]map[K]struct{}` in one structure guarded by a single
reader/writer lock.  We embed the two indexes as association lists
(`List (K × V)` and `List (V × List K)`), mirroring each operation of the
source as a pure function.  Go map assignment, lookup and deletion become
`kinsert`, `kfind` and `kerase`; the inner key sets become lists handled
by `sinsert` / `serase`.  The lock itself has no functional content in a
sequential embedding and is dropped.
-/

set_option autoImplicit false

namespace Genericmap

/-- Lookup in an association list: Go `v, ok := m[k]`. -/
def kfind {α β : Type} [DecidableEq α] : List (α × β) → α → Option β
  | [], _ => none
  | p :: t, k => if p.1 = k then some p.2 else kfind t k

/-- Map assignment `m[k] = v`: replace the entry for `k`, or append one. -/
def kinsert {α β : Type} [DecidableEq α] : List (α × β) → α → β → List (α × β)
  | [], k, v => [(k, v)]
  | p :: t, k, v => if p.1 = k then (k, v) :: t else p :: kinsert t k v

/-- Map deletion `delete(m, k)`. -/
def kerase {α β : Type} [DecidableEq α] : List (α × β) → α → List (α × β)
  | [], _ => []
  | p :: t, k => if p.1 = k then kerase t k else p :: kerase t k

/-- Set insertion into a reverse bucket: `bucket[k] = struct\x7b\x7d{}`. -/
def sinsert {α : Type} [DecidableEq α] (s : List α) (a : α) : List α :=
  if a ∈ s then s else a :: s

/-- Set deletion from a reverse bucket: `delete(bucket, k)`. -/
def serase {α : Type} [DecidableEq α] : List α → α → List α
  | [], _ => []
  | b :: t, a => if b = a then serase t a else b :: serase t a

/-- The keys of an association list. -/
def keysOf {α β : Type} (l : List (α × β)) : List α := l.map Prod.fst

variable {K V : Type} [DecidableEq K] [DecidableEq V]

/-- The structure `Map[K, V]` of the source: forward index `data` and
reverse index `reverseMap` (the `sync.RWMutex` carries no sequential
semantics and is omitted). -/
structure GMap (K V : Type) where
  data : List (K × V)
  reverseMap : List (V × List K)
  deriving DecidableEq, Repr

/-- The empty map, as built by `New()` with no initial data. -/
def GMap.empty : GMap K V := ⟨[], []⟩

/-- Internal helper `removeFromReverseMap`: removes `key` from the bucket
of `value`; if the bucket becomes empty, deletes the bucket entirely. -/
def GMap.removeFromReverseMap (m : GMap K V) (key : K) (value : V) :
    GMap K V :=
  match kfind m.reverseMap value with
  | some keyMap =>
    let keyMap' := serase keyMap key
    if keyMap' = [] then ⟨m.data, kerase m.reverseMap value⟩
    else ⟨m.data, kinsert m.reverseMap value keyMap'⟩
  | none => m

/-- The last three lines of `Set`: write `data[key] = value` and add
`key` to the bucket of `value`, creating the bucket when absent
(`if m.reverseMap[value] == nil`). -/
def GMap.addPair (m : GMap K V) (key : K) (value : V) : GMap K V :=
  ⟨kinsert m.data key value,
   kinsert m.reverseMap value
     (sinsert ((kfind m.reverseMap value).getD []) key)⟩

/-- `Set(key, value)`: no-op when the key already holds the value,
otherwise remove the key from the old value's bucket and insert. -/
def GMap.set (m : GMap K V) (key : K) (value : V) : GMap K V :=
  match kfind m.data key with
  | some oldValue =>
    if oldValue = value then m
    else (m.removeFromReverseMap key oldValue).addPair key value
  | none => m.addPair key value

/-- `Get(key)`: the value and a found flag; the zero value of `V`
(Lean's `default`) when absent. -/
def GMap.get [Inhabited V] (m : GMap K V) (key : K) : V × Bool :=
  match kfind m.data key with
  | some v => (v, true)
  | none => (default, false)

/-- `GetKeys(value)`: the keys of the bucket of `value`, or an empty
collection when the bucket is absent. -/
def GMap.getKeys (m : GMap K V) (value : V) : List K :=
  match kfind m.reverseMap value with
  | some keyMap => keyMap
  | none => []

/-- `List()`: all keys of the forward index. -/
def GMap.list (m : GMap K V) : List K := m.data.map Prod.fst

/-- `Values()`: one value per forward entry, duplicates included. -/
def GMap.values (m : GMap K V) : List V := m.data.map Prod.snd

/-- `Remove(key)`: the resulting map and the boolean the call returns. -/
def GMap.remove (m : GMap K V) (key : K) : GMap K V × Bool :=
  match kfind m.data key with
  | some value =>
    (GMap.removeFromReverseMap ⟨kerase m.data key, m.reverseMap⟩ key value,
     true)
  | none => (m, false)

/-- `Len()`: the number of forward entries. -/
def GMap.len (m : GMap K V) : Nat := m.data.length

/-- One step of the loop body of `New`: `m.data[k] = v` followed by
adding `k` to the bucket of `v`. -/
def GMap.newStep (m : GMap K V) (p : K × V) : GMap K V :=
  ⟨kinsert m.data p.1 p.2,
   kinsert m.reverseMap p.2
     (sinsert ((kfind m.reverseMap p.2).getD []) p.1)⟩

/-- `New(initialData...)`: fold the loop body over every supplied map
(each Go map is embedded as an association list with unique keys). -/
def GMap.new (initialData : List (List (K × V))) : GMap K V :=
  initialData.foldl (fun m dm => dm.foldl GMap.newStep m) GMap.empty

/-- `NewWithCapacity(capacity)`: the capacity is a pure allocation hint
(the Go runtime clamps negative map-capacity hints to zero), so the
embedding is the empty map for every argument. -/
def GMap.newWithCapacity (capacity : Int) : GMap K V :=
  ⟨[], []⟩

/-- Invariant I1: every forward key sits in the bucket of its value. -/
def I1 (m : GMap K V) : Prop :=
  ∀ k v, kfind m.data k = some v →
    ∃ b, kfind m.reverseMap v = some b ∧ k ∈ b

/-- Invariant I2: every present bucket is non-empty. -/
def I2 (m : GMap K V) : Prop :=
  ∀ v b, kfind m.reverseMap v = some b → b ≠ []

/-- Invariant I3: every key of the bucket of `v` maps forward to `v`. -/
def I3 (m : GMap K V) : Prop :=
  ∀ v b, kfind m.reverseMap v = some b → ∀ k ∈ b, kfind m.data k = some v

/-- The sum of the bucket sizes of a reverse index. -/
def bucketSum (r : List (V × List K)) : Nat :=
  (r.map (fun p => p.2.length)).sum

/-- Invariant I4: the forward size equals the sum of the bucket sizes. -/
def I4 (m : GMap K V) : Prop :=
  m.data.length = bucketSum m.reverseMap

/-- Well-formedness the Go maps provide for free: unique forward keys,
unique reverse keys, and duplicate-free buckets. -/
def WF (m : GMap K V) : Prop :=
  (keysOf m.data).Nodup ∧ (keysOf m.reverseMap).Nodup ∧
    ∀ v b, kfind m.reverseMap v = some b → b.Nodup

/-- The full invariant carried through every operation. -/
def Inv (m : GMap K V) : Prop :=
  WF m ∧ I1 m ∧ I2 m ∧ I3 m ∧ I4 m

/-- A single mutating call. -/
inductive Op (K V : Type) where
  | set (key : K) (value : V)
  | remove (key : K)

/-- Apply one mutating call. -/
def applyOp (m : GMap K V) : Op K V → GMap K V
  | Op.set k v => m.set k v
  | Op.remove k => (m.remove k).1

/-- Apply a finite sequence of mutating calls in order. -/
def applyOps (m : GMap K V) : List (Op K V) → GMap K V
  | [] => m
  | o :: t => applyOps (applyOp m o) t

section Lemmas

variable {α β : Type} [DecidableEq α]

theorem kfind_kinsert_self (l : List (α × β)) (k : α) (v : β) :
    kfind (kinsert l k v) k = some v := by
  induction l with
  | nil => simp [kinsert, kfind]
  | cons p t ih =>
    by_cases h : p.1 = k <;> simp [kinsert, kfind, h, ih]

theorem kfind_kinsert_ne (l : List (α × β)) {k k' : α} (v : β)
    (h : k' ≠ k) : kfind (kinsert l k v) k' = kfind l k' := by
  induction l with
  | nil => simp [kinsert, kfind, Ne.symm h]
  | cons p t ih =>
    by_cases hpk : p.1 = k <;> by_cases hpk' : p.1 = k' <;>
      simp_all [kinsert, kfind, Ne.symm h]

theorem kfind_kerase_self (l : List (α × β)) (k : α) :
    kfind (kerase l k) k = none := by
  induction l with
  | nil => simp [kerase, kfind]
  | cons p t ih =>
    by_cases h : p.1 = k <;> simp [kerase, kfind, h, ih]

theorem kfind_kerase_ne (l : List (α × β)) {k k' : α}
    (h : k' ≠ k) : kfind (kerase l k) k' = kfind l k' := by
  induction l with
  | nil => simp [kerase]
  | cons p t ih =>
    by_cases hpk : p.1 = k <;> by_cases hpk' : p.1 = k' <;>
      simp_all [kerase, kfind]

theorem mem_keysOf_kinsert {l : List (α × β)} {a k : α} {v : β} :
    a ∈ keysOf (kinsert l k v) ↔ a = k ∨ a ∈ keysOf l := by
  induction l with
  | nil => simp [kinsert, keysOf]
  | cons p t ih =>
    by_cases h : p.1 = k <;> simp_all [kinsert, keysOf] <;> tauto

theorem kfind_eq_none_iff {l : List (α × β)} {k : α} :
    kfind l k = none ↔ k ∉ keysOf l := by
  induction l with
  | nil => simp [kfind, keysOf]
  | cons p t ih =>
    by_cases h : p.1 = k <;> simp_all [kfind, keysOf] <;> tauto

theorem kfind_isSome_iff {l : List (α × β)} {k : α} :
    (kfind l k).isSome ↔ k ∈ keysOf l := by
  rw [Option.isSome_iff_ne_none]
  simp [Ne, kfind_eq_none_iff]

theorem mem_of_kfind_eq_some {l : List (α × β)} {k : α} {v : β}
    (h : kfind l k = some v) : (k, v) ∈ l := by
  induction l with
  | nil => simp [kfind] at h
  | cons p t ih =>
    by_cases hpk : p.1 = k
    · have h2 : p.2 = v := by simpa [kfind, hpk] using h
      have hp : (k, v) = p := by
        obtain ⟨a, b⟩ := p
        simp only at hpk h2
        simp [hpk, h2]
      exact List.mem_cons.mpr (Or.inl hp)
    · simp [kfind, hpk] at h
      exact List.mem_cons_of_mem _ (ih h)

theorem kfind_eq_some_of_mem {l : List (α × β)} {k : α} {v : β}
    (hnd : (keysOf l).Nodup) (h : (k, v) ∈ l) : kfind l k = some v := by
  induction l with
  | nil => simp at h
  | cons p t ih =>
    simp only [keysOf, List.map_cons, List.nodup_cons] at hnd
    rcases List.mem_cons.mp h with h | h
    · simp [kfind, ← h]
    · have hk : k ∈ keysOf t := List.mem_map_of_mem Prod.fst h
      have hpk : p.1 ≠ k := fun he => hnd.1 (he ▸ hk)
      simp [kfind, hpk, ih hnd.2 h]

theorem nodup_keysOf_kinsert {l : List (α × β)} {k : α} {v : β}
    (h : (keysOf l).Nodup) : (keysOf (kinsert l k v)).Nodup := by
  induction l with
  | nil => simp [kinsert, keysOf]
  | cons p t ih =>
    simp only [keysOf, List.map_cons, List.nodup_cons] at h
    by_cases hpk : p.1 = k
    · simp only [kinsert, hpk, if_true, keysOf, List.map_cons,
        List.nodup_cons]
      exact ⟨hpk ▸ h.1, h.2⟩
    · simp only [kinsert, hpk, if_false, keysOf, List.map_cons,
        List.nodup_cons]
      refine ⟨fun hmem => ?_, ih h.2⟩
      rcases mem_keysOf_kinsert.mp hmem with he | hmem
      · exact hpk he
      · exact h.1 hmem

theorem kerase_sublist (l : List (α × β)) (k : α) :
    (kerase l k).Sublist l := by
  induction l with
  | nil => simp [kerase]
  | cons p t ih =>
    by_cases h : p.1 = k
    · simp only [kerase, h, if_true]
      exact ih.cons _
    · simp only [kerase, h, if_false]
      exact ih.cons₂ _

theorem nodup_keysOf_kerase {l : List (α × β)} {k : α}
    (h : (keysOf l).Nodup) : (keysOf (kerase l k)).Nodup :=
  h.sublist ((kerase_sublist l k).map Prod.fst)

theorem kerase_of_not_mem {l : List (α × β)} {k : α}
    (h : k ∉ keysOf l) : kerase l k = l := by
  induction l with
  | nil => simp [kerase]
  | cons p t ih =>
    simp only [keysOf, List.map_cons, List.mem_cons, not_or] at h
    have h1 : p.1 ≠ k := fun he => h.1 he.symm
    have h2 : kerase t k = t := ih (by simpa [keysOf] using h.2)
    simp [kerase, h1, h2]

theorem length_kinsert (l : List (α × β)) (k : α) (v : β) :
    (kinsert l k v).length =
      if k ∈ keysOf l then l.length else l.length + 1 := by
  induction l with
  | nil => simp [kinsert, keysOf]
  | cons p t ih =>
    by_cases h : p.1 = k
    · simp [kinsert, h, keysOf]
    · have hkp : ¬k = p.1 := fun he => h he.symm
      simp only [keysOf] at ih ⊢
      by_cases hm : k ∈ List.map Prod.fst t
      · simp [kinsert, h, ih, hm, hkp]
      · simp [kinsert, h, ih, hm, hkp]

theorem length_kerase {l : List (α × β)} {k : α}
    (hnd : (keysOf l).Nodup) (hmem : k ∈ keysOf l) :
    (kerase l k).length + 1 = l.length := by
  induction l with
  | nil => simp [keysOf] at hmem
  | cons p t ih =>
    simp only [keysOf, List.map_cons, List.nodup_cons] at hnd
    simp only [keysOf, List.map_cons, List.mem_cons] at hmem
    by_cases h : p.1 = k
    · have : k ∉ keysOf t := h ▸ hnd.1
      simp [kerase, h, kerase_of_not_mem this]
    · rcases hmem with he | hmem
      · exact absurd he.symm h
      · simp only [kerase, h, if_false, List.length_cons]
        rw [← ih hnd.2 hmem]

theorem mem_sinsert {s : List α} {a b : α} :
    a ∈ sinsert s b ↔ a = b ∨ a ∈ s := by
  by_cases h : b ∈ s
  · simp only [sinsert, h, if_true]
    constructor
    · exact Or.inr
    · rintro (rfl | ha)
      exacts [h, ha]
  · simp [sinsert, h]

theorem nodup_sinsert {s : List α} {b : α} (h : s.Nodup) :
    (sinsert s b).Nodup := by
  by_cases hb : b ∈ s <;> simp [sinsert, hb, h]

theorem length_sinsert_of_not_mem {s : List α} {b : α} (h : b ∉ s) :
    (sinsert s b).length = s.length + 1 := by
  simp [sinsert, h]

theorem mem_serase {s : List α} {a b : α} :
    a ∈ serase s b ↔ a ∈ s ∧ a ≠ b := by
  induction s with
  | nil => simp [serase]
  | cons c t ih =>
    by_cases h : c = b
    · subst h
      simp only [serase, if_true, List.mem_cons, ih]
      constructor
      · rintro ⟨ht, hb⟩
        exact ⟨Or.inr ht, hb⟩
      · rintro ⟨rfl | ht, hb⟩
        · exact absurd rfl hb
        · exact ⟨ht, hb⟩
    · simp only [serase, h, if_false, List.mem_cons, ih]
      constructor
      · rintro (rfl | ⟨ht, hb⟩)
        · exact ⟨Or.inl rfl, h⟩
        · exact ⟨Or.inr ht, hb⟩
      · rintro ⟨rfl | ht, hb⟩
        · exact Or.inl rfl
        · exact Or.inr ⟨ht, hb⟩

theorem serase_sublist (s : List α) (b : α) : (serase s b).Sublist s := by
  induction s with
  | nil => simp [serase]
  | cons c t ih =>
    by_cases h : c = b
    · simp only [serase, h, if_true]
      exact ih.cons _
    · simp only [serase, h, if_false]
      exact ih.cons₂ _

theorem nodup_serase {s : List α} {b : α} (h : s.Nodup) :
    (serase s b).Nodup :=
  h.sublist (serase_sublist s b)

theorem serase_of_not_mem {s : List α} {b : α} (h : b ∉ s) :
    serase s b = s := by
  induction s with
  | nil => simp [serase]
  | cons c t ih =>
    simp only [List.mem_cons, not_or] at h
    have h1 : c ≠ b := fun he => h.1 he.symm
    simp [serase, h1, ih h.2]

theorem length_serase {s : List α} {b : α} (hnd : s.Nodup) (hmem : b ∈ s) :
    (serase s b).length + 1 = s.length := by
  induction s with
  | nil => simp at hmem
  | cons c t ih =>
    simp only [List.nodup_cons] at hnd
    by_cases h : c = b
    · have hbt : b ∉ t := h ▸ hnd.1
      simp [serase, h, serase_of_not_mem hbt]
    · rcases List.mem_cons.mp hmem with he | hmem'
      · exact absurd he.symm h
      · simp only [serase, h, if_false, List.length_cons]
        rw [ih hnd.2 hmem']

theorem eq_of_serase_eq_nil {s : List α} {b : α} (h : serase s b = []) :
    ∀ a ∈ s, a = b := by
  intro a ha
  by_contra hne
  have : a ∈ serase s b := mem_serase.mpr ⟨ha, hne⟩
  simp [h] at this

theorem bucketSum_cons {K V : Type} (p : V × List K) (t : List (V × List K)) :
    bucketSum (p :: t) = p.2.length + bucketSum t := by
  simp [bucketSum]

theorem bucketSum_kinsert_of_none {K V : Type} [DecidableEq V]
    {r : List (V × List K)} {v : V} (h : kfind r v = none) (b : List K) :
    bucketSum (kinsert r v b) = bucketSum r + b.length := by
  induction r with
  | nil => simp [kinsert, bucketSum]
  | cons p t ih =>
    by_cases hp : p.1 = v
    · simp [kfind, hp] at h
    · simp only [kfind, hp, if_false] at h
      simp only [kinsert, hp, if_false, bucketSum_cons, ih h]
      omega

theorem bucketSum_kinsert_of_some {K V : Type} [DecidableEq V]
    {r : List (V × List K)} {v : V} {b0 : List K}
    (h : kfind r v = some b0) (b : List K) :
    bucketSum (kinsert r v b) + b0.length = bucketSum r + b.length := by
  induction r with
  | nil => simp [kfind] at h
  | cons p t ih =>
    by_cases hp : p.1 = v
    · have hb : p.2 = b0 := by simpa [kfind, hp] using h
      simp only [kinsert, hp, if_true, bucketSum_cons, hb]
      omega
    · simp only [kfind, hp, if_false] at h
      have := ih h
      simp only [kinsert, hp, if_false, bucketSum_cons]
      omega

theorem bucketSum_kerase {K V : Type} [DecidableEq V]
    {r : List (V × List K)} {v : V} {b0 : List K}
    (hnd : (keysOf r).Nodup) (h : kfind r v = some b0) :
    bucketSum (kerase r v) + b0.length = bucketSum r := by
  induction r with
  | nil => simp [kfind] at h
  | cons p t ih =>
    simp only [keysOf, List.map_cons, List.nodup_cons] at hnd
    by_cases hp : p.1 = v
    · have hb : p.2 = b0 := by simpa [kfind, hp] using h
      have hvt : v ∉ keysOf t := hp ▸ hnd.1
      have he : kerase (p :: t) v = t := by
        simp [kerase, hp, kerase_of_not_mem hvt]
      rw [he, bucketSum_cons, hb]
      omega
    · simp only [kfind, hp, if_false] at h
      have := ih (by simpa [keysOf] using hnd.2) h
      simp only [kerase, hp, if_false, bucketSum_cons]
      omega

theorem getKeys_eq {K V : Type} [DecidableEq K] [DecidableEq V]
    (m : GMap K V) (v : V) :
    m.getKeys v = (kfind m.reverseMap v).getD [] := by
  unfold GMap.getKeys
  cases kfind m.reverseMap v <;> simp

end Lemmas

/-- Equality of `GMap` values from equality of both indexes. -/
theorem GMap.ext' {m m' : GMap K V} (h1 : m.data = m'.data)
    (h2 : m.reverseMap = m'.reverseMap) : m = m' := by
  cases m
  cases m'
  simp_all

/-- The joint condition on a forward index `d` and a reverse index `R`
holding just after `key` has been detached from `R`: the reverse index
is well-formed, covers every forward key other than `key`, and no bucket
mentions `key`.  `Set` reaches this point right before its final
insertion, `Remove` right after its bucket surgery. -/
def PreInv (d : List (K × V)) (R : List (V × List K)) (key : K) : Prop :=
  (keysOf R).Nodup ∧
  (∀ v b, kfind R v = some b → b.Nodup) ∧
  (∀ v b, kfind R v = some b → b ≠ []) ∧
  (∀ k v, k ≠ key → kfind d k = some v →
    ∃ b, kfind R v = some b ∧ k ∈ b) ∧
  (∀ v b, kfind R v = some b → ∀ k ∈ b, k ≠ key ∧ kfind d k = some v)

theorem removeFromReverseMap_data (m : GMap K V) (key : K) (value : V) :
    (m.removeFromReverseMap key value).data = m.data := by
  unfold GMap.removeFromReverseMap
  cases kfind m.reverseMap value with
  | none => rfl
  | some b =>
    by_cases h : serase b key = [] <;> simp [h]

theorem removeFromReverseMap_reverseMap_congr (d d' : List (K × V))
    (r : List (V × List K)) (key : K) (value : V) :
    (GMap.removeFromReverseMap ⟨d, r⟩ key value).reverseMap =
      (GMap.removeFromReverseMap ⟨d', r⟩ key value).reverseMap := by
  unfold GMap.removeFromReverseMap
  dsimp only
  cases kfind r value with
  | none => rfl
  | some b =>
    by_cases h : serase b key = [] <;> simp [h]

/-- On a map absent from the forward index, the reverse index already
satisfies the pre-insertion condition. -/
theorem preInv_of_absent {m : GMap K V} (hInv : Inv m) {key : K}
    (hc : kfind m.data key = none) :
    PreInv m.data m.reverseMap key := by
  obtain ⟨⟨hdnd, hrnd, hbnd⟩, hI1, hI2, hI3, hI4⟩ := hInv
  refine ⟨hrnd, hbnd, hI2, fun k v _ hkv => hI1 k v hkv, ?_⟩
  intro v c hvc k hkc
  have hkv := hI3 v c hvc k hkc
  refine ⟨?_, hkv⟩
  rintro rfl
  rw [hc] at hkv
  cases hkv

/-- `removeFromReverseMap` detaches `key` (mapped to `old`) from the
reverse index, leaving the pre-insertion condition and one key fewer in
the buckets. -/
theorem preInv_removeFromReverseMap {m : GMap K V} (hInv : Inv m)
    {key : K} {old : V} (hc : kfind m.data key = some old) :
    PreInv m.data (m.removeFromReverseMap key old).reverseMap key ∧
      bucketSum (m.removeFromReverseMap key old).reverseMap + 1 =
        m.data.length := by
  obtain ⟨⟨hdnd, hrnd, hbnd⟩, hI1, hI2, hI3, hI4⟩ := hInv
  have h4 : m.data.length = bucketSum m.reverseMap := hI4
  obtain ⟨b, hb, hkb⟩ := hI1 key old hc
  have hbnodup : b.Nodup := hbnd old b hb
  have hred : (m.removeFromReverseMap key old).reverseMap =
      if serase b key = [] then kerase m.reverseMap old
      else kinsert m.reverseMap old (serase b key) := by
    unfold GMap.removeFromReverseMap
    rw [hb]
    by_cases h : serase b key = [] <;> simp [h]
  by_cases hnil : serase b key = []
  · rw [hred, if_pos hnil]
    have hall : ∀ a ∈ b, a = key := eq_of_serase_eq_nil hnil
    have hb1 : b.length = 1 := by
      have h5 := length_serase hbnodup hkb
      rw [hnil] at h5
      simp at h5
      omega
    refine ⟨⟨nodup_keysOf_kerase hrnd, ?_, ?_, ?_, ?_⟩, ?_⟩
    · intro v c hvc
      have hvold : v ≠ old := by
        rintro rfl
        rw [kfind_kerase_self] at hvc
        cases hvc
      rw [kfind_kerase_ne _ hvold] at hvc
      exact hbnd v c hvc
    · intro v c hvc
      have hvold : v ≠ old := by
        rintro rfl
        rw [kfind_kerase_self] at hvc
        cases hvc
      rw [kfind_kerase_ne _ hvold] at hvc
      exact hI2 v c hvc
    · intro k v hk hkv
      obtain ⟨c, hcv, hkc⟩ := hI1 k v hkv
      have hvold : v ≠ old := by
        rintro rfl
        rw [hb] at hcv
        injection hcv with hbc
        exact hk (hall k (hbc ▸ hkc))
      refine ⟨c, ?_, hkc⟩
      rw [kfind_kerase_ne _ hvold]
      exact hcv
    · intro v c hvc k hkc
      have hvold : v ≠ old := by
        rintro rfl
        rw [kfind_kerase_self] at hvc
        cases hvc
      rw [kfind_kerase_ne _ hvold] at hvc
      have hkv := hI3 v c hvc k hkc
      refine ⟨?_, hkv⟩
      rintro rfl
      rw [hc] at hkv
      injection hkv with hvo
      exact hvold hvo.symm
    · have := bucketSum_kerase hrnd hb
      omega
  · rw [hred, if_neg hnil]
    have hlen : (serase b key).length + 1 = b.length :=
      length_serase hbnodup hkb
    refine ⟨⟨nodup_keysOf_kinsert hrnd, ?_, ?_, ?_, ?_⟩, ?_⟩
    · intro v c hvc
      by_cases hv : v = old
      · subst hv
        rw [kfind_kinsert_self] at hvc
        injection hvc with hvc
        exact hvc ▸ nodup_serase hbnodup
      · rw [kfind_kinsert_ne _ _ hv] at hvc
        exact hbnd v c hvc
    · intro v c hvc
      by_cases hv : v = old
      · subst hv
        rw [kfind_kinsert_self] at hvc
        injection hvc with hvc
        exact hvc ▸ hnil
      · rw [kfind_kinsert_ne _ _ hv] at hvc
        exact hI2 v c hvc
    · intro k v hk hkv
      obtain ⟨c, hcv, hkc⟩ := hI1 k v hkv
      by_cases hv : v = old
      · subst hv
        have hbc : b = c := by
          rw [hb] at hcv
          injection hcv
        refine ⟨serase b key, kfind_kinsert_self _ _ _, ?_⟩
        exact mem_serase.mpr ⟨hbc ▸ hkc, hk⟩
      · refine ⟨c, ?_, hkc⟩
        rw [kfind_kinsert_ne _ _ hv]
        exact hcv
    · intro v c hvc k hkc
      by_cases hv : v = old
      · subst hv
        rw [kfind_kinsert_self] at hvc
        injection hvc with hvc
        rw [← hvc] at hkc
        have hks := mem_serase.mp hkc
        exact ⟨hks.2, hI3 v b hb k hks.1⟩
      · rw [kfind_kinsert_ne _ _ hv] at hvc
        have hkv := hI3 v c hvc k hkc
        refine ⟨?_, hkv⟩
        rintro rfl
        rw [hc] at hkv
        injection hkv with hvo
        exact hv hvo.symm
    · have := bucketSum_kinsert_of_some hb (serase b key)
      omega

/-- The final insertion shared by `Set` and the loop body of `New`:
writing `key → value` into both indexes from a pre-insertion state
re-establishes the full invariant. -/
theorem inv_addPair {d : List (K × V)} {R : List (V × List K)} {key : K}
    (value : V) (hd : (keysOf d).Nodup) (hpre : PreInv d R key)
    (hsum : bucketSum R + (if kfind d key = none then 0 else 1) =
      d.length) :
    Inv (GMap.addPair ⟨d, R⟩ key value) := by
  obtain ⟨hrnd, hbnd, hbne, hfwd, hrev⟩ := hpre
  have hkeyB : key ∉ (kfind R value).getD [] := by
    cases hvB : kfind R value with
    | none => simp
    | some b =>
      simp only [Option.getD_some]
      intro hk
      exact (hrev value b hvB key hk).1 rfl
  have hBnd : ((kfind R value).getD []).Nodup := by
    cases hvB : kfind R value with
    | none => simp
    | some b =>
      simp only [Option.getD_some]
      exact hbnd value b hvB
  have hsin : sinsert ((kfind R value).getD []) key =
      key :: (kfind R value).getD [] := by
    simp [sinsert, hkeyB]
  have hgoal : GMap.addPair ⟨d, R⟩ key value =
      ⟨kinsert d key value,
       kinsert R value (key :: (kfind R value).getD [])⟩ := by
    unfold GMap.addPair
    dsimp only
    rw [hsin]
  rw [hgoal]
  refine ⟨⟨nodup_keysOf_kinsert hd, nodup_keysOf_kinsert hrnd, ?_⟩,
    ?_, ?_, ?_, ?_⟩
  · -- buckets stay duplicate-free
    intro v c hvc
    replace hvc : kfind (kinsert R value
      (key :: (kfind R value).getD [])) v = some c := hvc
    by_cases hv : v = value
    · subst hv
      rw [kfind_kinsert_self] at hvc
      injection hvc with hvc
      exact hvc ▸ List.nodup_cons.mpr ⟨hkeyB, hBnd⟩
    · rw [kfind_kinsert_ne _ _ hv] at hvc
      exact hbnd v c hvc
  · -- I1
    intro k v hkv
    replace hkv : kfind (kinsert d key value) k = some v := hkv
    by_cases hk : k = key
    · rw [hk, kfind_kinsert_self] at hkv
      injection hkv with hkv
      refine ⟨key :: (kfind R value).getD [], ?_, ?_⟩
      · rw [← hkv]
        exact kfind_kinsert_self _ _ _
      · rw [hk]
        exact List.mem_cons_self _ _
    · rw [kfind_kinsert_ne _ _ hk] at hkv
      obtain ⟨c, hcv, hkc⟩ := hfwd k v hk hkv
      by_cases hv : v = value
      · have hcB : (kfind R value).getD [] = c := by
          rw [← hv, hcv]
          rfl
        refine ⟨key :: (kfind R value).getD [], ?_, ?_⟩
        · rw [hv]
          exact kfind_kinsert_self _ _ _
        · exact List.mem_cons_of_mem _ (hcB ▸ hkc)
      · refine ⟨c, ?_, hkc⟩
        rw [kfind_kinsert_ne _ _ hv]
        exact hcv
  · -- I2
    intro v c hvc
    replace hvc : kfind (kinsert R value
      (key :: (kfind R value).getD [])) v = some c := hvc
    by_cases hv : v = value
    · subst hv
      rw [kfind_kinsert_self] at hvc
      injection hvc with hvc
      exact hvc ▸ List.cons_ne_nil _ _
    · rw [kfind_kinsert_ne _ _ hv] at hvc
      exact hbne v c hvc
  · -- I3
    intro v c hvc k hkc
    replace hvc : kfind (kinsert R value
      (key :: (kfind R value).getD [])) v = some c := hvc
    show kfind (kinsert d key value) k = some v
    by_cases hv : v = value
    · rw [hv, kfind_kinsert_self] at hvc
      injection hvc with hvc
      rw [← hvc] at hkc
      rcases List.mem_cons.mp hkc with hkk | hkB
      · rw [hkk, hv]
        exact kfind_kinsert_self _ _ _
      · cases hvB : kfind R value with
        | none =>
          rw [hvB] at hkB
          simp at hkB
        | some b =>
          rw [hvB] at hkB
          simp only [Option.getD_some] at hkB
          have hkk2 := hrev value b hvB k hkB
          rw [kfind_kinsert_ne _ _ hkk2.1, hv]
          exact hkk2.2
    · rw [kfind_kinsert_ne _ _ hv] at hvc
      have hkk := hrev v c hvc k hkc
      rw [kfind_kinsert_ne _ _ hkk.1]
      exact hkk.2
  · -- I4
    show (kinsert d key value).length =
      bucketSum (kinsert R value (key :: (kfind R value).getD []))
    have h1 := length_kinsert d key value
    have h2 : bucketSum (kinsert R value
        (key :: (kfind R value).getD [])) = bucketSum R + 1 := by
      cases hvB : kfind R value with
      | none =>
        rw [bucketSum_kinsert_of_none hvB]
        simp
      | some b =>
        have h3 := bucketSum_kinsert_of_some hvB
          (key :: (some b).getD [])
        simp only [Option.getD_some, List.length_cons] at h3 ⊢
        omega
    rw [h1, h2]
    by_cases hk0 : kfind d key = none
    · have hks : key ∉ keysOf d := kfind_eq_none_iff.mp hk0
      rw [if_neg hks]
      rw [if_pos hk0] at hsum
      omega
    · have hks : key ∈ keysOf d := by
        by_contra hn
        exact hk0 (kfind_eq_none_iff.mpr hn)
      rw [if_pos hks]
      rw [if_neg hk0] at hsum
      omega

/-- After `Remove` erases the key from the forward index and detaches it
from the reverse index, the full invariant holds again. -/
theorem inv_removeResult {d : List (K × V)} {R : List (V × List K)}
    {key : K} (hd : (keysOf d).Nodup) (hkey : key ∈ keysOf d)
    (hpre : PreInv d R key) (hsum : bucketSum R + 1 = d.length) :
    Inv (⟨kerase d key, R⟩ : GMap K V) := by
  obtain ⟨hrnd, hbnd, hbne, hfwd, hrev⟩ := hpre
  refine ⟨⟨nodup_keysOf_kerase hd, hrnd, hbnd⟩, ?_, hbne, ?_, ?_⟩
  · intro k v hkv
    replace hkv : kfind (kerase d key) k = some v := hkv
    have hk : k ≠ key := by
      rintro rfl
      rw [kfind_kerase_self] at hkv
      cases hkv
    rw [kfind_kerase_ne _ hk] at hkv
    exact hfwd k v hk hkv
  · intro v c hvc k hkc
    have hkk := hrev v c hvc k hkc
    show kfind (kerase d key) k = some v
    rw [kfind_kerase_ne _ hkk.1]
    exact hkk.2
  · show (kerase d key).length = bucketSum R
    have := length_kerase hd hkey
    omega

/-- The empty map satisfies the invariant. -/
theorem inv_empty : Inv (GMap.empty : GMap K V) := by
  refine ⟨⟨?_, ?_, ?_⟩, ?_, ?_, ?_, ?_⟩
  · simp [GMap.empty, keysOf]
  · simp [GMap.empty, keysOf]
  · intro v b h
    replace h : kfind ([] : List (V × List K)) v = some b := h
    simp [kfind] at h
  · intro k v h
    replace h : kfind ([] : List (K × V)) k = some v := h
    simp [kfind] at h
  · intro v b h
    replace h : kfind ([] : List (V × List K)) v = some b := h
    simp [kfind] at h
  · intro v b h
    replace h : kfind ([] : List (V × List K)) v = some b := h
    simp [kfind] at h
  · rfl

/-- `Set` preserves the invariant. -/
theorem inv_set {m : GMap K V} (hInv : Inv m) (key : K) (value : V) :
    Inv (m.set key value) := by
  have h4 : m.data.length = bucketSum m.reverseMap := hInv.2.2.2.2
  cases hc : kfind m.data key with
  | none =>
    have hred : m.set key value = GMap.addPair m key value := by
      unfold GMap.set
      rw [hc]
    rw [hred]
    have hpre := preInv_of_absent hInv hc
    refine inv_addPair value hInv.1.1 hpre ?_
    rw [if_pos hc]
    omega
  | some old =>
    by_cases he : old = value
    · have hred : m.set key value = m := by
        unfold GMap.set
        rw [hc]
        simp [he]
      rw [hred]
      exact hInv
    · have hred : m.set key value =
          (m.removeFromReverseMap key old).addPair key value := by
        unfold GMap.set
        rw [hc]
        simp [he]
      rw [hred]
      have hpair := preInv_removeFromReverseMap hInv hc
      have hres : m.removeFromReverseMap key old =
          ⟨m.data, (m.removeFromReverseMap key old).reverseMap⟩ :=
        GMap.ext' (removeFromReverseMap_data m key old) rfl
      rw [hres]
      refine inv_addPair value hInv.1.1 hpair.1 ?_
      rw [if_neg (by simp [hc])]
      exact hpair.2

/-- `Remove` preserves the invariant. -/
theorem inv_remove {m : GMap K V} (hInv : Inv m) (key : K) :
    Inv (m.remove key).1 := by
  cases hc : kfind m.data key with
  | none =>
    have hred : (m.remove key).1 = m := by
      unfold GMap.remove
      rw [hc]
    rw [hred]
    exact hInv
  | some old =>
    have hred : (m.remove key).1 =
        GMap.removeFromReverseMap ⟨kerase m.data key, m.reverseMap⟩
          key old := by
      unfold GMap.remove
      rw [hc]
    rw [hred]
    have hpair := preInv_removeFromReverseMap hInv hc
    have hdata : (GMap.removeFromReverseMap
        ⟨kerase m.data key, m.reverseMap⟩ key old).data =
        kerase m.data key :=
      removeFromReverseMap_data _ key old
    have hrev : (GMap.removeFromReverseMap
        ⟨kerase m.data key, m.reverseMap⟩ key old).reverseMap =
        (m.removeFromReverseMap key old).reverseMap :=
      removeFromReverseMap_reverseMap_congr _ m.data _ key old
    have hres : GMap.removeFromReverseMap
        ⟨kerase m.data key, m.reverseMap⟩ key old =
        ⟨kerase m.data key,
         (m.removeFromReverseMap key old).reverseMap⟩ :=
      GMap.ext' hdata hrev
    rw [hres]
    have hkey : key ∈ keysOf m.data := by
      rw [← kfind_isSome_iff, hc]
      rfl
    exact inv_removeResult hInv.1.1 hkey hpair.1 hpair.2

/-- Every single call preserves the invariant. -/
theorem inv_applyOp {m : GMap K V} (hInv : Inv m) (o : Op K V) :
    Inv (applyOp m o) := by
  cases o with
  | set k v => exact inv_set hInv k v
  | remove k => exact inv_remove hInv k

/-- Every finite sequence of calls preserves the invariant. -/
theorem inv_applyOps {m : GMap K V} (hInv : Inv m)
    (ops : List (Op K V)) : Inv (applyOps m ops) := by
  induction ops generalizing m with
  | nil => exact hInv
  | cons o t ih => exact ih (inv_applyOp hInv o)

/-- `Set` on an absent key takes the plain insertion path. -/
theorem set_eq_of_none {m : GMap K V} {k : K}
    (hc : kfind m.data k = none) (v : V) :
    m.set k v = m.addPair k v := by
  unfold GMap.set
  rw [hc]

/-- `Set` with the value already held is the no-op path. -/
theorem set_eq_of_same {m : GMap K V} {k : K} {v : V}
    (hc : kfind m.data k = some v) : m.set k v = m := by
  unfold GMap.set
  rw [hc]
  simp

/-- `Set` over a different old value detaches the key first. -/
theorem set_eq_of_some_ne {m : GMap K V} {k : K} {old : V}
    (hc : kfind m.data k = some old) {v : V} (hne : old ≠ v) :
    m.set k v = (m.removeFromReverseMap k old).addPair k v := by
  unfold GMap.set
  rw [hc]
  simp [hne]

/-- After `Set(k, v)` the forward index holds `v` at `k`. -/
theorem kfind_set_data_self (m : GMap K V) (k : K) (v : V) :
    kfind (m.set k v).data k = some v := by
  cases hc : kfind m.data k with
  | none =>
    rw [set_eq_of_none hc]
    exact kfind_kinsert_self _ _ _
  | some old =>
    by_cases he : old = v
    · rw [set_eq_of_same (he ▸ hc)]
      rw [hc, he]
    · rw [set_eq_of_some_ne hc he]
      exact kfind_kinsert_self _ _ _

/-- `Set(k, v)` leaves the forward entry of every other key alone. -/
theorem kfind_set_data_ne (m : GMap K V) {k k' : K} (v : V)
    (hne : k' ≠ k) : kfind (m.set k v).data k' = kfind m.data k' := by
  cases hc : kfind m.data k with
  | none =>
    rw [set_eq_of_none hc]
    exact kfind_kinsert_ne _ _ hne
  | some old =>
    by_cases he : old = v
    · rw [set_eq_of_same (he ▸ hc)]
    · rw [set_eq_of_some_ne hc he]
      have hda : ((m.removeFromReverseMap k old).addPair k v).data =
          kinsert (m.removeFromReverseMap k old).data k v := rfl
      rw [hda, removeFromReverseMap_data]
      exact kfind_kinsert_ne _ _ hne

/-- On an invariant-satisfying state the bucket of `v` holds exactly the
keys mapping forward to `v`. -/
theorem mem_getKeys_iff {m : GMap K V} (hInv : Inv m) {k : K} {v : V} :
    k ∈ m.getKeys v ↔ kfind m.data k = some v := by
  obtain ⟨⟨hdnd, hrnd, hbnd⟩, hI1, hI2, hI3, hI4⟩ := hInv
  cases hb : kfind m.reverseMap v with
  | none =>
    have hg : m.getKeys v = [] := by
      unfold GMap.getKeys
      rw [hb]
    rw [hg]
    simp only [List.not_mem_nil, false_iff]
    intro hkv
    obtain ⟨b, hbv, _⟩ := hI1 k v hkv
    rw [hb] at hbv
    cases hbv
  | some b =>
    have hg : m.getKeys v = b := by
      unfold GMap.getKeys
      rw [hb]
    rw [hg]
    constructor
    · exact hI3 v b hb k
    · intro hkv
      obtain ⟨b', hbv, hkb'⟩ := hI1 k v hkv
      rw [hb] at hbv
      injection hbv with hbv
      rw [hbv]
      exact hkb'

/-- Buckets never hold a key twice, so neither does `GetKeys`. -/
theorem nodup_getKeys {m : GMap K V} (hInv : Inv m) (v : V) :
    (m.getKeys v).Nodup := by
  cases hb : kfind m.reverseMap v with
  | none =>
    have hg : m.getKeys v = [] := by
      unfold GMap.getKeys
      rw [hb]
    rw [hg]
    exact List.nodup_nil
  | some b =>
    have hg : m.getKeys v = b := by
      unfold GMap.getKeys
      rw [hb]
    rw [hg]
    exact hInv.1.2.2 v b hb

/-- Explicit description of the reverse index after the bucket surgery of
`removeFromReverseMap` when the bucket exists. -/
theorem removeFromReverseMap_reverseMap_eq (m : GMap K V) (key : K)
    {value : V} {b : List K} (hb : kfind m.reverseMap value = some b) :
    (m.removeFromReverseMap key value).reverseMap =
      if serase b key = [] then kerase m.reverseMap value
      else kinsert m.reverseMap value (serase b key) := by
  unfold GMap.removeFromReverseMap
  rw [hb]
  by_cases h : serase b key = [] <;> simp [h]

/-- `removeFromReverseMap` never disturbs the bucket membership of a key
other than the removed one. -/
theorem frame_removeFromReverseMap {m : GMap K V} {key k' : K}
    (old : V) (hne : k' ≠ key) (w : V) :
    (k' ∈ (kfind (m.removeFromReverseMap key old).reverseMap w).getD [] ↔
      k' ∈ (kfind m.reverseMap w).getD []) := by
  cases hb : kfind m.reverseMap old with
  | none =>
    have hr : m.removeFromReverseMap key old = m := by
      unfold GMap.removeFromReverseMap
      rw [hb]
    rw [hr]
  | some b =>
    rw [removeFromReverseMap_reverseMap_eq m key hb]
    by_cases hnil : serase b key = []
    · rw [if_pos hnil]
      by_cases hw : w = old
      · rw [hw, kfind_kerase_self, hb]
        simp only [Option.getD_none, Option.getD_some,
          List.not_mem_nil, false_iff]
        intro hkb
        exact hne (eq_of_serase_eq_nil hnil k' hkb)
      · rw [kfind_kerase_ne _ hw]
    · rw [if_neg hnil]
      by_cases hw : w = old
      · rw [hw, kfind_kinsert_self, hb]
        simp only [Option.getD_some]
        rw [mem_serase]
        exact ⟨fun h => h.1, fun h => ⟨h, hne⟩⟩
      · rw [kfind_kinsert_ne _ _ hw]

/-- The final insertion of `Set` never disturbs the bucket membership of
another key. -/
theorem frame_addPair {m : GMap K V} {key k' : K} (hne : k' ≠ key)
    (value : V) (w : V) :
    (k' ∈ (kfind (m.addPair key value).reverseMap w).getD [] ↔
      k' ∈ (kfind m.reverseMap w).getD []) := by
  have hra : (m.addPair key value).reverseMap =
      kinsert m.reverseMap value
        (sinsert ((kfind m.reverseMap value).getD []) key) := rfl
  rw [hra]
  by_cases hw : w = value
  · rw [hw, kfind_kinsert_self]
    simp only [Option.getD_some]
    rw [sinsert]
    by_cases hk : key ∈ (kfind m.reverseMap value).getD []
    · rw [if_pos hk]
    · rw [if_neg hk]
      simp [List.mem_cons, hne]
  · rw [kfind_kinsert_ne _ _ hw]

/-- `Set(k, v)` never disturbs the `GetKeys` membership of another key,
for any queried value. -/
theorem mem_getKeys_set_frame {m : GMap K V} {k k' : K} (hne : k' ≠ k)
    (v v' : V) :
    (k' ∈ (m.set k v).getKeys v' ↔ k' ∈ m.getKeys v') := by
  rw [getKeys_eq, getKeys_eq]
  cases hc : kfind m.data k with
  | none =>
    rw [set_eq_of_none hc]
    exact frame_addPair hne v v'
  | some old =>
    by_cases he : old = v
    · rw [set_eq_of_same (he ▸ hc)]
    · rw [set_eq_of_some_ne hc he]
      rw [frame_addPair hne v v']
      exact frame_removeFromReverseMap old hne v'

/-- Each value occurs in `Values()` once per key mapping to it: as often
as the size of its reverse bucket. -/
theorem values_count_eq_getKeys_length {m : GMap K V} (hInv : Inv m)
    (v : V) : m.values.count v = (m.getKeys v).length := by
  obtain ⟨⟨hdnd, hrnd, hbnd⟩, hI1, hI2, hI3, hI4⟩ := hInv
  have hcnt : m.values.count v =
      (m.data.filter (fun p => p.2 == v)).length := by
    unfold GMap.values
    rw [List.count, List.countP_map,
      ← List.countP_eq_length_filter]
    rfl
  cases hb : kfind m.reverseMap v with
  | none =>
    have hg : m.getKeys v = [] := by
      unfold GMap.getKeys
      rw [hb]
    rw [hg, hcnt]
    simp only [List.length_nil]
    rw [List.length_eq_zero, List.filter_eq_nil_iff]
    intro p hp hpv
    have hpv2 : p.2 = v := by simpa using hpv
    have hfind : kfind m.data p.1 = some p.2 :=
      kfind_eq_some_of_mem hdnd hp
    obtain ⟨b, hbv, _⟩ := hI1 p.1 p.2 hfind
    rw [hpv2, hb] at hbv
    cases hbv
  | some b =>
    have hg : m.getKeys v = b := by
      unfold GMap.getKeys
      rw [hb]
    rw [hg, hcnt]
    have hFnd : (keysOf (m.data.filter (fun p => p.2 == v))).Nodup :=
      hdnd.sublist ((List.filter_sublist m.data).map Prod.fst)
    have hbnd2 : b.Nodup := hbnd v b hb
    have hmem : ∀ a,
        a ∈ keysOf (m.data.filter (fun p => p.2 == v)) ↔ a ∈ b := by
      intro a
      constructor
      · intro ha
        obtain ⟨p, hpF, hpa⟩ := List.mem_map.mp ha
        have hpd := (List.mem_filter.mp hpF).1
        have hpv2 : p.2 = v := by
          simpa using (List.mem_filter.mp hpF).2
        have hfind : kfind m.data a = some v := by
          rw [← hpa, ← hpv2]
          exact kfind_eq_some_of_mem hdnd hpd
        obtain ⟨b', hbv, hab⟩ := hI1 a v hfind
        rw [hb] at hbv
        injection hbv with hbv
        rw [hbv]
        exact hab
      · intro hab
        have hfind := hI3 v b hb a hab
        have hmemd : (a, v) ∈ m.data := mem_of_kfind_eq_some hfind
        refine List.mem_map.mpr ⟨(a, v), ?_, rfl⟩
        exact List.mem_filter.mpr ⟨hmemd, by simp⟩
    have hperm : List.Perm
        (keysOf (m.data.filter (fun p => p.2 == v))) b :=
      (List.perm_ext_iff_of_nodup hFnd hbnd2).mpr hmem
    calc (m.data.filter (fun p => p.2 == v)).length
        = (keysOf (m.data.filter (fun p => p.2 == v))).length :=
          (List.length_map _ _).symm
      _ = b.length := hperm.length_eq

/-- Claim C1: starting from the empty map, after every finite sequence
of Set and Remove calls, invariants I1-I4 hold: every forward key is in
its value's bucket, every bucket is non-empty, every bucket key maps
forward to the bucket's value, and the forward size equals the sum of
the bucket sizes. -/
theorem c1_invariant_preservation (ops : List (Op K V)) :
    I1 (applyOps GMap.empty ops) ∧ I2 (applyOps GMap.empty ops) ∧
    I3 (applyOps GMap.empty ops) ∧ I4 (applyOps GMap.empty ops) := by
  have h := inv_applyOps inv_empty ops
  exact ⟨h.2.1, h.2.2.1, h.2.2.2.1, h.2.2.2.2⟩

/-- Claim C2 is refuted by the code: `New` called with two initial maps
that share key 0 under different values writes the forward entry
last-write-wins but leaves key 0 in the stale bucket of value 1, so I3
and I4 fail on the returned structure. -/
theorem c2_new_shared_key_breaks_invariants :
    (GMap.new [[(0, 1)], [(0, 2)]] : GMap Nat Nat).data = [(0, 2)] ∧
    kfind (GMap.new [[(0, 1)], [(0, 2)]] : GMap Nat Nat).reverseMap 1 =
      some [0] ∧
    ¬ I3 (GMap.new [[(0, 1)], [(0, 2)]] : GMap Nat Nat) ∧
    ¬ I4 (GMap.new [[(0, 1)], [(0, 2)]] : GMap Nat Nat) := by
  refine ⟨by decide, by decide, ?_, ?_⟩
  · intro h
    have h3 := h 1 [0] (by decide) 0 (by decide)
    have h4 : kfind
        (GMap.new [[(0, 1)], [(0, 2)]] : GMap Nat Nat).data 0 =
        some 2 := by decide
    rw [h4] at h3
    exact absurd h3 (by decide)
  · intro h
    have h5 : (GMap.new [[(0, 1)], [(0, 2)]] : GMap Nat Nat).data.length
        = bucketSum
          (GMap.new [[(0, 1)], [(0, 2)]] : GMap Nat Nat).reverseMap := h
    have h6 : (GMap.new [[(0, 1)], [(0, 2)]] : GMap Nat Nat).data.length
        = 1 := by decide
    have h7 : bucketSum
        (GMap.new [[(0, 1)], [(0, 2)]] : GMap Nat Nat).reverseMap = 2 :=
      by decide
    rw [h6, h7] at h5
    exact absurd h5 (by decide)

/-- Claim C3: on every invariant-satisfying state, GetKeys(v) holds
exactly the keys mapping forward to v, each exactly once, and is the
empty collection — not an error — when no key maps to v, in particular
on the empty map. -/
theorem c3_getKeys_exact (m : GMap K V) (hInv : Inv m) (v : V) (k : K) :
    (k ∈ m.getKeys v ↔ kfind m.data k = some v) ∧
    (m.getKeys v).Nodup ∧ (GMap.empty : GMap K V).getKeys v = [] :=
  ⟨mem_getKeys_iff hInv, nodup_getKeys hInv v, rfl⟩

/-- Witness for C3 at the one-entry state reached by Set(0, 1). -/
theorem c3_getKeys_exact_witness :
    (0 ∈ ((GMap.empty : GMap Nat Nat).set 0 1).getKeys 1 ↔
      kfind ((GMap.empty : GMap Nat Nat).set 0 1).data 0 = some 1) ∧
    (((GMap.empty : GMap Nat Nat).set 0 1).getKeys 1).Nodup ∧
    (GMap.empty : GMap Nat Nat).getKeys 1 = [] :=
  c3_getKeys_exact _ (inv_set inv_empty 0 1) 1 0

/-- Claim C4: Set(k, v) then Get(k) yields (v, true) on every state, and
Get of an absent key yields the zero value with found = false. -/
theorem c4_set_get_roundtrip [Inhabited V] (m : GMap K V) (k : K)
    (v : V) :
    (m.set k v).get k = (v, true) ∧
    (kfind m.data k = none → m.get k = (default, false)) := by
  constructor
  · unfold GMap.get
    rw [kfind_set_data_self]
  · intro h
    unfold GMap.get
    rw [h]

/-- Witness for C4: round trip at (0, 7) and a miss at key 5. -/
theorem c4_set_get_roundtrip_witness :
    ((GMap.empty : GMap Nat Nat).set 0 7).get 0 = (7, true) ∧
    (GMap.empty : GMap Nat Nat).get 5 = (0, false) :=
  ⟨(c4_set_get_roundtrip GMap.empty 0 7).1,
   (c4_set_get_roundtrip (GMap.empty : GMap Nat Nat) 5 9).2 rfl⟩

/-- Claim C5: Remove(k) returns true exactly when k is present; on an
absent key it returns false leaving the map untouched; on a present key
it erases k from the forward index and from the old value's bucket,
deleting the bucket entirely when it empties, all other buckets kept. -/
theorem c5_remove_semantics (m : GMap K V) (k : K) :
    ((m.remove k).2 = true ↔ (kfind m.data k).isSome = true) ∧
    (kfind m.data k = none → m.remove k = (m, false)) ∧
    (∀ old b, kfind m.data k = some old →
      kfind m.reverseMap old = some b →
      ((m.remove k).1.data = kerase m.data k ∧
       kfind (m.remove k).1.reverseMap old =
         (if serase b k = [] then none else some (serase b k)) ∧
       ∀ w, w ≠ old → kfind (m.remove k).1.reverseMap w =
         kfind m.reverseMap w)) := by
  cases hc : kfind m.data k with
  | none =>
    have hred : m.remove k = (m, false) := by
      unfold GMap.remove
      rw [hc]
    refine ⟨?_, fun _ => hred, ?_⟩
    · rw [hred]
      simp
    · intro old b hc' hb
      cases hc'
  | some old0 =>
    have hred : m.remove k =
        (GMap.removeFromReverseMap ⟨kerase m.data k, m.reverseMap⟩
          k old0, true) := by
      unfold GMap.remove
      rw [hc]
    refine ⟨?_, ?_, ?_⟩
    · rw [hred]
      simp
    · intro h
      cases h
    · intro old b hc' hb
      injection hc' with he
      subst he
      have hdata : (m.remove k).1.data = kerase m.data k := by
        rw [hred]
        exact removeFromReverseMap_data _ _ _
      have hrm : (m.remove k).1.reverseMap =
          if serase b k = [] then kerase m.reverseMap old0
          else kinsert m.reverseMap old0 (serase b k) := by
        rw [hred]
        show (GMap.removeFromReverseMap ⟨kerase m.data k, m.reverseMap⟩
          k old0).reverseMap = _
        rw [removeFromReverseMap_reverseMap_congr (kerase m.data k)
          m.data m.reverseMap k old0]
        exact removeFromReverseMap_reverseMap_eq m k hb
      refine ⟨hdata, ?_, ?_⟩
      · rw [hrm]
        by_cases hnil : serase b k = []
        · rw [if_pos hnil, if_pos hnil]
          exact kfind_kerase_self _ _
        · rw [if_neg hnil, if_neg hnil]
          exact kfind_kinsert_self _ _ _
      · intro w hw
        rw [hrm]
        by_cases hnil : serase b k = []
        · rw [if_pos hnil]
          exact kfind_kerase_ne _ hw
        · rw [if_neg hnil]
          exact kfind_kinsert_ne _ _ hw

/-- Witness for C5: a hit that prunes the bucket of value 1 entirely,
and a miss that returns the map unchanged with false. -/
theorem c5_remove_semantics_witness :
    ((((GMap.empty : GMap Nat Nat).set 0 1).remove 0).2 = true ↔
      (kfind ((GMap.empty : GMap Nat Nat).set 0 1).data 0).isSome =
        true) ∧
    (GMap.empty : GMap Nat Nat).remove 3 = (GMap.empty, false) ∧
    kfind (((GMap.empty : GMap Nat Nat).set 0 1).remove
      0).1.reverseMap 1 =
      (if serase [0] 0 = [] then none else some (serase [0] 0)) :=
  ⟨(c5_remove_semantics ((GMap.empty : GMap Nat Nat).set 0 1) 0).1,
   (c5_remove_semantics (GMap.empty : GMap Nat Nat) 3).2.1 rfl,
   ((c5_remove_semantics ((GMap.empty : GMap Nat Nat).set 0 1)
      0).2.2 1 [0] rfl rfl).2.1⟩

/-- Claim C6: when k already maps to v, a second Set(k, v) is a no-op:
Len, GetKeys(v) and both internal indexes are unchanged. -/
theorem c6_idempotent_set (m : GMap K V) (k : K) (v : V)
    (h : kfind m.data k = some v) :
    (m.set k v).len = m.len ∧ (m.set k v).getKeys v = m.getKeys v ∧
    (m.set k v).data = m.data ∧
    (m.set k v).reverseMap = m.reverseMap := by
  rw [set_eq_of_same h]
  exact ⟨rfl, rfl, rfl, rfl⟩

/-- Witness for C6 at the state holding 0 → 1. -/
theorem c6_idempotent_set_witness :
    (((GMap.empty : GMap Nat Nat).set 0 1).set 0 1).len =
      ((GMap.empty : GMap Nat Nat).set 0 1).len ∧
    (((GMap.empty : GMap Nat Nat).set 0 1).set 0 1).getKeys 1 =
      ((GMap.empty : GMap Nat Nat).set 0 1).getKeys 1 ∧
    (((GMap.empty : GMap Nat Nat).set 0 1).set 0 1).data =
      ((GMap.empty : GMap Nat Nat).set 0 1).data ∧
    (((GMap.empty : GMap Nat Nat).set 0 1).set 0 1).reverseMap =
      ((GMap.empty : GMap Nat Nat).set 0 1).reverseMap :=
  c6_idempotent_set _ 0 1 (by decide)

/-- Claim C7: overwriting a key with a different value removes it from
the old value's bucket and inserts it under the new one; done from the
empty map the length stays 1. -/
theorem c7_overwrite_reverse_consistency (m : GMap K V) (hInv : Inv m)
    (k : K) (v1 v2 : V) (hne : v1 ≠ v2) :
    k ∉ ((m.set k v1).set k v2).getKeys v1 ∧
    k ∈ ((m.set k v1).set k v2).getKeys v2 ∧
    (((GMap.empty : GMap K V).set k v1).set k v2).len = 1 := by
  have hInv2 : Inv ((m.set k v1).set k v2) :=
    inv_set (inv_set hInv k v1) k v2
  have hfind : kfind ((m.set k v1).set k v2).data k = some v2 :=
    kfind_set_data_self _ _ _
  refine ⟨?_, (mem_getKeys_iff hInv2).mpr hfind, ?_⟩
  · intro hmem
    have hv1 := (mem_getKeys_iff hInv2).mp hmem
    rw [hfind] at hv1
    injection hv1 with hv1
    exact hne hv1.symm
  · have hfind1 : kfind ((GMap.empty : GMap K V).set k v1).data k =
        some v1 := kfind_set_data_self _ _ _
    show (((GMap.empty : GMap K V).set k v1).set k v2).data.length = 1
    rw [set_eq_of_some_ne hfind1 hne]
    have hda : ((((GMap.empty : GMap K V).set k
        v1).removeFromReverseMap k v1).addPair k v2).data =
        kinsert (((GMap.empty : GMap K V).set k
          v1).removeFromReverseMap k v1).data k v2 := rfl
    rw [hda, removeFromReverseMap_data, length_kinsert]
    have hk : k ∈ keysOf ((GMap.empty : GMap K V).set k v1).data := by
      rw [← kfind_isSome_iff, hfind1]
      rfl
    rw [if_pos hk]
    have hc0 : kfind (GMap.empty : GMap K V).data k = none := rfl
    rw [set_eq_of_none hc0]
    rfl

/-- Witness for C7: overwriting 0 → 1 with 0 → 2 from the empty map. -/
theorem c7_overwrite_reverse_consistency_witness :
    0 ∉ (((GMap.empty : GMap Nat Nat).set 0 1).set 0 2).getKeys 1 ∧
    0 ∈ (((GMap.empty : GMap Nat Nat).set 0 1).set 0 2).getKeys 2 ∧
    (((GMap.empty : GMap Nat Nat).set 0 1).set 0 2).len = 1 :=
  c7_overwrite_reverse_consistency GMap.empty inv_empty 0 1 2
    (by decide)

/-- Claim C8: NewWithCapacity succeeds for every integer capacity, the
negative ones included (Go's runtime treats the map-capacity hint as
advisory and clamps nonsense to zero), and the result is the same empty,
invariant-satisfying map the plain constructor returns. -/
theorem c8_newWithCapacity_safe (n : Int) :
    (GMap.newWithCapacity n : GMap K V) = GMap.new [] ∧
    Inv (GMap.newWithCapacity n : GMap K V) :=
  ⟨rfl, inv_empty⟩

/-- Claim C9: Values has one entry per forward key — duplicates kept, its
length is Len and each value occurs as often as its bucket is large —
and List is exactly the key set, duplicate-free, of length Len. -/
theorem c9_values_list_snapshots (m : GMap K V) (hInv : Inv m) (v : V)
    (k : K) :
    m.values.length = m.len ∧ m.list.length = m.len ∧
    (k ∈ m.list ↔ (kfind m.data k).isSome = true) ∧ m.list.Nodup ∧
    m.values.count v = (m.getKeys v).length := by
  refine ⟨?_, ?_, ?_, hInv.1.1, values_count_eq_getKeys_length hInv v⟩
  · exact List.length_map m.data Prod.snd
  · exact List.length_map m.data Prod.fst
  · exact kfind_isSome_iff.symm

/-- Witness for C9 at the state holding 0 → 1. -/
theorem c9_values_list_snapshots_witness :
    ((GMap.empty : GMap Nat Nat).set 0 1).values.length =
      ((GMap.empty : GMap Nat Nat).set 0 1).len ∧
    ((GMap.empty : GMap Nat Nat).set 0 1).list.length =
      ((GMap.empty : GMap Nat Nat).set 0 1).len ∧
    (0 ∈ ((GMap.empty : GMap Nat Nat).set 0 1).list ↔
      (kfind ((GMap.empty : GMap Nat Nat).set 0 1).data 0).isSome =
        true) ∧
    ((GMap.empty : GMap Nat Nat).set 0 1).list.Nodup ∧
    ((GMap.empty : GMap Nat Nat).set 0 1).values.count 1 =
      (((GMap.empty : GMap Nat Nat).set 0 1).getKeys 1).length :=
  c9_values_list_snapshots _ (inv_set inv_empty 0 1) 1 0

/-- Claim C10: Set(k, v) does not affect any other key: Get of a
different key, and its membership in GetKeys for every value, are
unchanged. -/
theorem c10_set_frame [Inhabited V] (m : GMap K V) (k k' : K)
    (v v' : V) (hne : k' ≠ k) :
    (m.set k v).get k' = m.get k' ∧
    (k' ∈ (m.set k v).getKeys v' ↔ k' ∈ m.getKeys v') := by
  constructor
  · unfold GMap.get
    rw [kfind_set_data_ne m v hne]
  · exact mem_getKeys_set_frame hne v v'

/-- Witness for C10: Set(0, 1) leaves key 5 (mapped to 9) alone. -/
theorem c10_set_frame_witness :
    (((GMap.empty : GMap Nat Nat).set 5 9).set 0 1).get 5 =
      ((GMap.empty : GMap Nat Nat).set 5 9).get 5 ∧
    (5 ∈ (((GMap.empty : GMap Nat Nat).set 5 9).set 0 1).getKeys 9 ↔
      5 ∈ ((GMap.empty : GMap Nat Nat).set 5 9).getKeys 9) :=
  c10_set_frame ((GMap.empty : GMap Nat Nat).set 5 9) 0 5 1 9
    (by decide)

end Genericmap
